import Mathlib

/-!
Shallow embedding of `src/chatbook.py` (ChatBook MVP).

Strings are modelled as `List Char` (Python `str` is a sequence of code
points, and `len`/slicing count code points, matching `List.length` /
`List.take`).  Integer parameters (`max_length`, `max_display_length`) are
modelled as `Nat`; the program only ever compares them against nonnegative
lengths.
-/

namespace ChatBook

/-- The whitespace characters stripped by Python's `str.strip()` /
`str.split()` (ASCII subset actually occurring in the program's data). -/
def isSpace (c : Char) : Bool :=
  c == ' ' || c == '\t' || c == '\n' || c == '\r' || c == '\x0b' || c == '\x0c'

/-- Python `str.lower` restricted to the alphabets the program handles
(ASCII plus Russian Cyrillic, matching the `cp1251`/UTF-8 texts it reads). -/
def lowerChar (c : Char) : Char :=
  if 'A' ≤ c && c ≤ 'Z' then Char.ofNat (c.toNat + 32)
  else if 'А' ≤ c && c ≤ 'Я' then Char.ofNat (c.toNat + 32)
  else if c == 'Ё' then 'ё'
  else c

/-- `s.lower()` -/
def lowerL (s : List Char) : List Char := s.map lowerChar

/-- Strip characters satisfying `p` from both ends (Python `str.strip`). -/
def stripBy (p : Char → Bool) (s : List Char) : List Char :=
  ((s.dropWhile p).reverse.dropWhile p).reverse

/-- Python `str.strip()` with no argument: strip whitespace. -/
def stripWS (s : List Char) : List Char := stripBy isSpace s

/-- The punctuation set in `find_answer`: `'.,!?;:()[]{}"\''`. -/
def punctChars : List Char :=
  ['.', ',', '!', '?', ';', ':', '(', ')', '[', ']',
   Char.ofNat 123, Char.ofNat 125, Char.ofNat 34, Char.ofNat 39]

/-- Python `word.strip('.,!?;:()[]\x7b\x7d"\'')`. -/
def stripPunct (s : List Char) : List Char := stripBy (fun c => punctChars.contains c) s

/-- `needle.isPrefixOf hay` for char lists, written out. -/
def leadsWith : List Char → List Char → Bool
  | [], _ => true
  | _ :: _, [] => false
  | a :: as, b :: bs => a == b && leadsWith as bs

/-- Python `needle in hay` (substring containment). -/
def hasSubstr (needle : List Char) : List Char → Bool
  | [] => needle.isEmpty
  | c :: rest => leadsWith needle (c :: rest) || hasSubstr needle rest

/-- Python `text.split('\n\n')`: split at each non-overlapping, leftmost
occurrence of two consecutive newlines. -/
def splitParas : List Char → List (List Char)
  | [] => [[]]
  | [c] => [[c]]
  | c1 :: c2 :: rest =>
    if c1 == '\n' && c2 == '\n' then
      [] :: splitParas rest
    else
      match splitParas (c2 :: rest) with
      | [] => [[c1]]
      | p :: ps => (c1 :: p) :: ps

/-- Stage 1 of `split_text`:
`[part.strip() for part in text.split('\n\n') if part.strip()]`. -/
def paraParts (text : List Char) : List (List Char) :=
  ((splitParas text).map stripWS).filter (fun p => !p.isEmpty)

/-- The sentence-accumulation loop of `split_text`: walk the characters,
flushing the stripped current sentence at each of `.`, `!`, `?`, and the
stripped remainder at the end if it is non-empty. -/
def sentencesAux : List Char → List Char → List (List Char)
  | [], cur => if (stripWS cur).isEmpty then [] else [stripWS cur]
  | c :: rest, cur =>
    if c == '.' || c == '!' || c == '?' then
      stripWS (cur ++ [c]) :: sentencesAux rest []
    else
      sentencesAux rest (cur ++ [c])

/-- The sentence list a too-long paragraph is split into. -/
def splitSentences (part : List Char) : List (List Char) := sentencesAux part []

/-- The greedy packing loop of `split_text`: grow `cur` while
`len(cur) + len(s) + 1 ≤ maxLen` (joining with one space), otherwise flush
the non-empty `cur` and restart from `s`; flush the non-empty `cur` at the
end. -/
def packAux (maxLen : Nat) : List (List Char) → List Char → List (List Char)
  | [], cur => if cur.isEmpty then [] else [cur]
  | s :: rest, cur =>
    if cur.length + s.length + 1 ≤ maxLen then
      packAux maxLen rest (if cur.isEmpty then s else cur ++ ' ' :: s)
    else
      (if cur.isEmpty then [] else [cur]) ++ packAux maxLen rest s

/-- Per-paragraph processing in `split_text`: short paragraphs are emitted
as-is, long ones are sentence-split and greedily repacked. -/
def processPart (maxLen : Nat) (part : List Char) : List (List Char) :=
  if part.length ≤ maxLen then [part]
  else packAux maxLen (splitSentences part) []

/-- `split_text(text, max_length)` from `src/chatbook.py`. -/
def split_text (text : List Char) (max_length : Nat) : List (List Char) :=
  let final_parts := ((paraParts text).map (processPart max_length)).flatten
  if final_parts.isEmpty then [text] else final_parts

/-- The keyword list of `find_answer`:
`[w.strip(punct) for w in question.lower().split() if len(w.strip(punct)) > 2]`.
Note this is a list, not a set: duplicate tokens are kept. -/
def pySplitWSAux : List Char → List Char → List (List Char)
  | [], cur => if cur.isEmpty then [] else [cur]
  | c :: rest, cur =>
    if isSpace c then
      (if cur.isEmpty then [] else [cur]) ++ pySplitWSAux rest []
    else
      pySplitWSAux rest (cur ++ [c])

/-- Python `s.split()` with no argument: split on whitespace runs,
producing no empty tokens. -/
def pySplitWS (s : List Char) : List (List Char) := pySplitWSAux s []

/-- The keyword extraction of `find_answer` (lines 126–130). -/
def keywords (question : List Char) : List (List Char) :=
  ((pySplitWS (lowerL question)).map stripPunct).filter (fun w => 2 < w.length)

/-- The per-chunk score of `find_answer` (lines 140–146): one point per
entry of the keyword list occurring as a substring of the lowercased chunk. -/
def chunkScore (question_words : List (List Char)) (part : List Char) : Nat :=
  question_words.foldl
    (fun score word => if hasSubstr word (lowerL part) then score + 1 else score) 0

/-- The best-match loop of `find_answer` (lines 135–151): replace the best
pair only on a strictly greater score. -/
def bestLoop (question_words : List (List Char)) :
    List (List Char) → List Char → Nat → List Char × Nat
  | [], best_match, best_score => (best_match, best_score)
  | part :: rest, best_match, best_score =>
    let score := chunkScore question_words part
    if best_score < score then bestLoop question_words rest part score
    else bestLoop question_words rest best_match best_score

def noKeywordsMsg : List Char :=
  "Не удалось определить ключевые слова в вопросе.".data

def noMatchMsg : List Char :=
  "Не найдено точного совпадения. Вот начало текста:\n".data

/-- `find_answer(question, text_parts)` from `src/chatbook.py`.
The zero-score fallback indexes `text_parts[0]`, which raises `IndexError`
on an empty list; that error path is modelled as `none`. -/
def find_answer (question : List Char) (text_parts : List (List Char)) :
    Option (List Char × Nat) :=
  let question_words := keywords question
  if question_words.isEmpty then
    some (noKeywordsMsg, 0)
  else
    let best := bestLoop question_words text_parts [] 0
    if best.2 = 0 then
      match text_parts with
      | [] => none
      | first :: _ => some (noMatchMsg ++ first.take 500, 0)
    else
      some best

def truncMarker : List Char := "\n\n[... текст обрезан ...]".data

/-- `format_answer(answer_text, max_display_length)` from `src/chatbook.py`. -/
def format_answer (answer_text : List Char) (max_display_length : Nat) : List Char :=
  if answer_text.length ≤ max_display_length then answer_text
  else answer_text.take max_display_length ++ truncMarker

/-- "c is an atomic sentence unit of text at bound L": c is one of the
sentences of an oversized paragraph of text. -/
def isSentenceUnitOf (text : List Char) (L : Nat) (c : List Char) : Prop :=
  ∃ p ∈ paraParts text, L < p.length ∧ c ∈ splitSentences p

instance (text : List Char) (L : Nat) (c : List Char) :
    Decidable (isSentenceUnitOf text L c) := by
  unfold isSentenceUnitOf; infer_instance

end ChatBook

namespace ChatBook

/-! ### Helper lemmas -/

theorem foldl_if_count (p : List Char → Bool) (l : List (List Char)) (n : Nat) :
    l.foldl (fun sc w => if p w then sc + 1 else sc) n = n + l.countP p := by
  induction l generalizing n with
  | nil => simp
  | cons a t ih =>
    rw [List.foldl_cons, ih, List.countP_cons]
    by_cases h : p a <;> simp [h] <;> omega

theorem chunkScore_countP (qws : List (List Char)) (part : List Char) :
    chunkScore qws part = qws.countP (fun w => hasSubstr w (lowerL part)) := by
  unfold chunkScore
  simpa using foldl_if_count (fun w => hasSubstr w (lowerL part)) qws 0

theorem le_foldl_max (l : List Nat) (b : Nat) : b ≤ l.foldl max b := by
  induction l generalizing b with
  | nil => exact Nat.le_refl b
  | cons a t ih => exact Nat.le_trans (Nat.le_max_left b a) (ih (max b a))

/-! ### Presenter (C7, C9) -/

/-- C7: for every text `x` with `x.length ≤ max_display_length`, the
Presenter returns `x` unchanged, and hence is idempotent on such inputs. -/
theorem presenter_identity_and_idempotent (x : List Char) (m : Nat)
    (h : x.length ≤ m) :
    format_answer x m = x ∧
      format_answer (format_answer x m) m = format_answer x m := by
  have h1 : format_answer x m = x := by simp [format_answer, h]
  exact ⟨h1, by rw [h1]; exact h1⟩

/-- Witness for C7 at `x = "ab"`, `m = 5`. -/
theorem presenter_identity_and_idempotent_witness :
    format_answer "ab".data 5 = "ab".data ∧
      format_answer (format_answer "ab".data 5) 5 = format_answer "ab".data 5 :=
  presenter_identity_and_idempotent "ab".data 5 (by decide)

/-- C9: the Presenter's output length is at most
`max_display_length + truncMarker.length`, and whenever the input is longer
than `max_display_length` the output is exactly the first
`max_display_length` characters followed by the marker. -/
theorem presenter_truncation_bound (x : List Char) (m : Nat) :
    (format_answer x m).length ≤ m + truncMarker.length ∧
      (m < x.length → format_answer x m = x.take m ++ truncMarker) := by
  by_cases h : x.length ≤ m
  · refine ⟨?_, fun hm => absurd h (Nat.not_le.mpr hm)⟩
    simp only [format_answer, if_pos h]
    omega
  · refine ⟨?_, fun _ => by simp [format_answer, h]⟩
    simp only [format_answer, if_neg h, List.length_append, List.length_take]
    have : min m x.length ≤ m := Nat.min_le_left m x.length
    omega

/-- Witness for C9 at `x = "abcd"`, `m = 2`. -/
theorem presenter_truncation_bound_witness :
    format_answer "abcd".data 2 = "abcd".data.take 2 ++ truncMarker :=
  (presenter_truncation_bound "abcd".data 2).2 (by decide)

/-! ### Segmenter output never empty (C6) -/

/-- C6: for every non-empty input text, the Segmenter returns a non-empty
chunk sequence (the final fallback returns `[text]` when the pipeline
produced nothing). -/
theorem segmenter_nonempty_output (text : List Char) (L : Nat)
    (h : text ≠ []) : split_text text L ≠ [] := by
  unfold split_text
  by_cases hE : (((paraParts text).map (processPart L)).flatten).isEmpty
  · simp [hE]
  · simp only [hE, if_neg, Bool.false_eq_true, not_false_eq_true]
    exact fun hc => by simp [hc] at hE

/-- Witness for C6 at `text = "a"`, `L = 5000`. -/
theorem segmenter_nonempty_output_witness : split_text "a".data 5000 ≠ [] :=
  segmenter_nonempty_output "a".data 5000 (by decide)

/-! ### Matcher scoring (C1) -/

/-- C1 (amended): the Matcher's score for a chunk equals the number of
entries of the keyword list (tokens with multiplicity, not distinct
keywords) that occur as substrings of the lowercased chunk. -/
theorem matcher_score_eq_multiplicity_count (question part : List Char) :
    chunkScore (keywords question) part
      = (keywords question).countP (fun w => hasSubstr w (lowerL part)) :=
  chunkScore_countP (keywords question) part

/-- C1 as stated is false: for the question `"dog dog?"` the keyword list is
`["dog", "dog"]`, and the chunk `"A dog."` scores 2, while the number of
distinct keywords occurring as substrings of the lowercased chunk is 1. -/
theorem matcher_score_distinct_counterexample :
    chunkScore (keywords "dog dog?".data) "A dog.".data = 2 ∧
      ((keywords "dog dog?".data).dedup.countP
        (fun w => hasSubstr w (lowerL "A dog.".data))) = 1 ∧
      (2 : Nat) ≠ 1 := by
  refine ⟨by decide, by decide, by decide⟩

/-! ### Matcher totality (C8) -/

/-- C8: for every question and non-empty chunk list the Matcher returns
normally (the `text_parts[0]` access in the zero-score branch is in
bounds), so the error path modelled by `none` is unreachable. -/
theorem matcher_total_on_nonempty (q : List Char) (parts : List (List Char))
    (h : parts ≠ []) : (find_answer q parts).isSome = true := by
  cases parts with
  | nil => exact absurd rfl h
  | cons first rest =>
    unfold find_answer
    by_cases hk : (keywords q).isEmpty
    · simp [hk]
    · simp only [hk, Bool.false_eq_true, if_neg, not_false_eq_true]
      by_cases h2 : (bestLoop (keywords q) (first :: rest) [] 0).2 = 0 <;>
        simp [h2]

/-- Witness for C8 at `q = "hello"`, `parts = ["x"]`. -/
theorem matcher_total_on_nonempty_witness :
    (find_answer "hello".data ["x".data]).isSome = true :=
  matcher_total_on_nonempty "hello".data ["x".data] (by decide)

end ChatBook

namespace ChatBook

/-! ### Matcher best-match loop (C4, C5) -/

theorem bestLoop_spec (qws : List (List Char)) (parts : List (List Char))
    (bm : List Char) (bs : Nat) :
    (bestLoop qws parts bm bs).2 = (parts.map (chunkScore qws)).foldl max bs
    ∧ ((bestLoop qws parts bm bs).2 = bs → (bestLoop qws parts bm bs).1 = bm)
    ∧ (bs < (bestLoop qws parts bm bs).2 →
        parts.find? (fun c => chunkScore qws c == (bestLoop qws parts bm bs).2)
          = some (bestLoop qws parts bm bs).1) := by
  induction parts generalizing bm bs with
  | nil =>
    exact ⟨rfl, fun _ => rfl, fun h => absurd h (lt_irrefl bs)⟩
  | cons p rest ih =>
    by_cases hlt : bs < chunkScore qws p
    · have hstep : bestLoop qws (p :: rest) bm bs
          = bestLoop qws rest p (chunkScore qws p) := by
        simp [bestLoop, hlt]
      obtain ⟨ih1, ih2, ih3⟩ := ih p (chunkScore qws p)
      have hmax : max bs (chunkScore qws p) = chunkScore qws p := by omega
      have hge : chunkScore qws p ≤ (bestLoop qws rest p (chunkScore qws p)).2 := by
        rw [ih1]; exact le_foldl_max _ _
      refine ⟨?_, ?_, ?_⟩
      · rw [hstep, ih1]; simp [hmax]
      · intro h2; exfalso; rw [hstep] at h2; omega
      · intro h3
        rw [hstep]
        by_cases he : chunkScore qws p = (bestLoop qws rest p (chunkScore qws p)).2
        · rw [List.find?_cons_of_pos _ (by simpa using he)]
          rw [ih2 he.symm]
        · rw [List.find?_cons_of_neg _ (by simpa using he)]
          exact ih3 (by omega)
    · have hstep : bestLoop qws (p :: rest) bm bs
          = bestLoop qws rest bm bs := by
        simp [bestLoop, hlt]
      obtain ⟨ih1, ih2, ih3⟩ := ih bm bs
      have hmax : max bs (chunkScore qws p) = bs := by omega
      refine ⟨?_, ?_, ?_⟩
      · rw [hstep, ih1]; simp [hmax]
      · intro h2; rw [hstep] at h2 ⊢; exact ih2 h2
      · intro h3
        rw [hstep] at h3 ⊢
        have hne : chunkScore qws p ≠ (bestLoop qws rest bm bs).2 := by omega
        rw [List.find?_cons_of_neg _ (by simpa using hne)]
        exact ih3 h3

theorem bestLoop_all_zero (qws : List (List Char)) (parts : List (List Char))
    (bm : List Char) (hz : ∀ p ∈ parts, chunkScore qws p = 0) :
    bestLoop qws parts bm 0 = (bm, 0) := by
  induction parts with
  | nil => rfl
  | cons p rest ih =>
    have h0 : chunkScore qws p = 0 := hz p (List.mem_cons_self p rest)
    have : bestLoop qws (p :: rest) bm 0 = bestLoop qws rest bm 0 := by
      simp [bestLoop, h0]
    rw [this]
    exact ih (fun x hx => hz x (List.mem_cons_of_mem p hx))

/-- C4: when the question has at least one keyword and the maximum chunk
score is positive, the Matcher returns the first chunk (in sequence order)
achieving that maximum, with that score; a later equal-scoring chunk never
replaces it. -/
theorem matcher_first_max_wins (q : List Char) (parts : List (List Char))
    (hk : keywords q ≠ [])
    (hM : 0 < (parts.map (chunkScore (keywords q))).foldl max 0) :
    ∃ p, parts.find? (fun c => chunkScore (keywords q) c
            == (parts.map (chunkScore (keywords q))).foldl max 0) = some p
        ∧ find_answer q parts
            = some (p, (parts.map (chunkScore (keywords q))).foldl max 0) := by
  obtain ⟨h1, _h2, h3⟩ := bestLoop_spec (keywords q) parts [] 0
  have hpos : 0 < (bestLoop (keywords q) parts [] 0).2 := by rw [h1]; exact hM
  have hfind := h3 hpos
  refine ⟨(bestLoop (keywords q) parts [] 0).1, ?_, ?_⟩
  · rw [← h1]; exact hfind
  · have hkE : (keywords q).isEmpty = false := by
      simpa [List.isEmpty_iff] using hk
    have hne : ¬ (bestLoop (keywords q) parts [] 0).2 = 0 := by omega
    simp only [find_answer, hkE, Bool.false_eq_true, if_false, hne, if_neg,
      not_false_eq_true]
    rw [← h1]

/-- Witness for C4: question `"big dogs?"` against
`["Cats are small.", "Dogs are big."]` (scores 0 and 2). -/
theorem matcher_first_max_wins_witness :
    ∃ p, (["Cats are small.".data, "Dogs are big.".data].find?
        (fun c => chunkScore (keywords "big dogs?".data) c
          == (["Cats are small.".data, "Dogs are big.".data].map
               (chunkScore (keywords "big dogs?".data))).foldl max 0)) = some p
      ∧ find_answer "big dogs?".data ["Cats are small.".data, "Dogs are big.".data]
          = some (p, (["Cats are small.".data, "Dogs are big.".data].map
               (chunkScore (keywords "big dogs?".data))).foldl max 0) :=
  matcher_first_max_wins "big dogs?".data
    ["Cats are small.".data, "Dogs are big.".data] (by decide) (by decide)

/-- C5: when the question has at least one keyword, the chunk list is
non-empty, and no chunk contains any keyword as a substring, the Matcher
returns score 0 and the fixed "no exact match" message concatenated with
the first 500 characters of the first chunk. -/
theorem matcher_zero_score_fallback (q first : List Char)
    (rest : List (List Char)) (hk : keywords q ≠ [])
    (h : ∀ p ∈ first :: rest, ∀ w ∈ keywords q, hasSubstr w (lowerL p) = false) :
    find_answer q (first :: rest) = some (noMatchMsg ++ first.take 500, 0) := by
  have hz : ∀ p ∈ first :: rest, chunkScore (keywords q) p = 0 := by
    intro p hp
    rw [chunkScore_countP]
    exact List.countP_eq_zero.mpr (fun w hw => by simp [h p hp w hw])
  have hbl := bestLoop_all_zero (keywords q) (first :: rest) [] hz
  have hkE : (keywords q).isEmpty = false := by
    simpa [List.isEmpty_iff] using hk
  simp [find_answer, hkE, hbl]

/-- Witness for C5: question `"qqqq"` against `["abc"]`. -/
theorem matcher_zero_score_fallback_witness :
    find_answer "qqqq".data ["abc".data]
      = some (noMatchMsg ++ ("abc".data).take 500, 0) :=
  matcher_zero_score_fallback "qqqq".data "abc".data [] (by decide) (by decide)

end ChatBook

namespace ChatBook

/-! ### Non-whitespace character preservation (C3) -/

theorem filter_dropWhile_isSpace (s : List Char) :
    (s.dropWhile isSpace).filter (fun c => !isSpace c)
      = s.filter (fun c => !isSpace c) := by
  induction s with
  | nil => rfl
  | cons c t ih =>
    rw [List.dropWhile_cons]
    by_cases h : isSpace c
    · simp [h, ih]
    · simp [h]

theorem filter_stripWS (s : List Char) :
    (stripWS s).filter (fun c => !isSpace c)
      = s.filter (fun c => !isSpace c) := by
  unfold stripWS stripBy
  rw [List.filter_reverse, filter_dropWhile_isSpace, List.filter_reverse,
    List.reverse_reverse, filter_dropWhile_isSpace]

theorem filter_of_stripWS_nil {s : List Char} (h : stripWS s = []) :
    s.filter (fun c => !isSpace c) = [] := by
  rw [← filter_stripWS, h]; rfl

theorem splitParas_ne_nil (s : List Char) : splitParas s ≠ [] := by
  induction s using splitParas.induct with
  | case1 => simp [splitParas]
  | case2 c => simp [splitParas]
  | case3 c1 c2 rest h _ih => simp [splitParas, h]
  | case4 c1 c2 rest h hnil _ih => simp [splitParas, h, hnil]
  | case5 c1 c2 rest h p ps hcons _ih => simp [splitParas, h, hcons]

theorem filter_flatten_splitParas (s : List Char) :
    ((splitParas s).flatten).filter (fun c => !isSpace c)
      = s.filter (fun c => !isSpace c) := by
  induction s using splitParas.induct with
  | case1 => simp [splitParas]
  | case2 c => simp [splitParas]
  | case3 c1 c2 rest h ih =>
    obtain ⟨h1, h2⟩ : c1 = '\n' ∧ c2 = '\n' := by simpa using h
    subst h1; subst h2
    simp only [splitParas, h]
    simpa [List.filter_cons, isSpace] using ih
  | case4 c1 c2 rest h hnil _ih => exact absurd hnil (splitParas_ne_nil _)
  | case5 c1 c2 rest h p ps hcons ih =>
    simp only [splitParas, if_neg h, hcons, List.flatten_cons]
    rw [hcons] at ih
    simp only [List.flatten_cons] at ih
    rw [List.cons_append, List.filter_cons, List.filter_cons, ih]

theorem filter_flatten_paraParts (text : List Char) :
    ((paraParts text).flatten).filter (fun c => !isSpace c)
      = text.filter (fun c => !isSpace c) := by
  have aux : ∀ l : List (List Char),
      (((l.map stripWS).filter (fun p => !p.isEmpty)).flatten).filter
          (fun c => !isSpace c)
        = (l.flatten).filter (fun c => !isSpace c) := by
    intro l
    induction l with
    | nil => rfl
    | cons x t ih =>
      simp only [List.map_cons, List.filter_cons, List.flatten_cons,
        List.filter_append]
      by_cases hx : (stripWS x).isEmpty
      · have hxnil : stripWS x = [] := by simpa [List.isEmpty_iff] using hx
        simp only [hx, Bool.not_true, Bool.false_eq_true, if_neg,
          not_false_eq_true, ih, filter_of_stripWS_nil hxnil]
        simp
      · simp only [hx, Bool.not_false, if_pos, List.flatten_cons,
          List.filter_append, filter_stripWS, ih]
  rw [paraParts.eq_def, aux, filter_flatten_splitParas]

theorem filter_flatten_sentencesAux (s cur : List Char) :
    ((sentencesAux s cur).flatten).filter (fun c => !isSpace c)
      = (cur ++ s).filter (fun c => !isSpace c) := by
  induction s generalizing cur with
  | nil =>
    simp only [sentencesAux]
    by_cases h : (stripWS cur).isEmpty
    · have : stripWS cur = [] := by simpa [List.isEmpty_iff] using h
      simp [h, filter_of_stripWS_nil this]
    · simp [h, filter_stripWS]
  | cons c rest ih =>
    simp only [sentencesAux]
    by_cases h : (c == '.' || c == '!' || c == '?') = true
    · have hc : isSpace c = false := by
        rcases (by simpa using h : (c = '.' ∨ c = '!') ∨ c = '?') with (h1 | h1) | h1 <;>
          subst h1 <;> decide
      simp only [if_pos h, List.flatten_cons, List.filter_append,
        filter_stripWS, ih []]
      simp [List.filter_append, List.filter_cons, hc]
    · simp only [if_neg h, ih (cur ++ [c])]
      simp [List.filter_append]

theorem filter_flatten_packAux (m : Nat) (sents : List (List Char))
    (cur : List Char) :
    ((packAux m sents cur).flatten).filter (fun c => !isSpace c)
      = (cur ++ sents.flatten).filter (fun c => !isSpace c) := by
  induction sents generalizing cur with
  | nil =>
    simp only [packAux]
    by_cases h : cur.isEmpty
    · have : cur = [] := by simpa [List.isEmpty_iff] using h
      simp [h, this]
    · simp [h]
  | cons s rest ih =>
    simp only [packAux]
    by_cases hfit : cur.length + s.length + 1 ≤ m
    · simp only [if_pos hfit, ih]
      by_cases hc : cur.isEmpty
      · have : cur = [] := by simpa [List.isEmpty_iff] using hc
        simp [hc, this]
      · simp only [hc, Bool.false_eq_true, if_neg, not_false_eq_true]
        simp [List.filter_append, List.filter_cons, isSpace]
    · simp only [if_neg hfit, List.flatten_append, List.filter_append, ih]
      by_cases hc : cur.isEmpty
      · have : cur = [] := by simpa [List.isEmpty_iff] using hc
        simp [hc, this]
      · simp [hc, List.filter_append]

theorem filter_flatten_processPart (m : Nat) (part : List Char) :
    ((processPart m part).flatten).filter (fun c => !isSpace c)
      = part.filter (fun c => !isSpace c) := by
  unfold processPart
  by_cases h : part.length ≤ m
  · simp [h]
  · simp only [if_neg h]
    rw [filter_flatten_packAux]
    simpa using filter_flatten_sentencesAux part []

/-- C3: concatenating the Segmenter's chunks preserves every non-whitespace
character of the input, in order (filtering out whitespace on both sides
yields the same character sequence). -/
theorem segmenter_preserves_nonspace_chars (text : List Char) (L : Nat) :
    ((split_text text L).flatten).filter (fun c => !isSpace c)
      = text.filter (fun c => !isSpace c) := by
  have aux : ∀ l : List (List Char),
      (((l.map (processPart L)).flatten).flatten).filter (fun c => !isSpace c)
        = (l.flatten).filter (fun c => !isSpace c) := by
    intro l
    induction l with
    | nil => rfl
    | cons x t ih =>
      simp only [List.map_cons, List.flatten_cons, List.flatten_append,
        List.filter_append, ih, filter_flatten_processPart]
  unfold split_text
  by_cases hE : (((paraParts text).map (processPart L)).flatten).isEmpty
  · simp [hE]
  · simp only [hE, Bool.false_eq_true, if_neg, not_false_eq_true]
    rw [aux, filter_flatten_paraParts]

end ChatBook

namespace ChatBook

/-! ### Chunks are stripped and non-empty (C10), length bound (C2) -/

theorem dropWhile_head_not (p : Char → Bool) (s : List Char) (c : Char)
    (t : List Char) (h : s.dropWhile p = c :: t) : p c = false := by
  induction s with
  | nil => simp at h
  | cons x xs ih =>
    rw [List.dropWhile_cons] at h
    by_cases hx : p x = true
    · exact ih (by simpa [hx] using h)
    · rw [if_neg hx] at h
      injection h with h1 _h2
      subst h1
      exact eq_false_of_ne_true hx

theorem dropWhile_idem (p : Char → Bool) (s : List Char) :
    (s.dropWhile p).dropWhile p = s.dropWhile p := by
  cases h : s.dropWhile p with
  | nil => rfl
  | cons c t =>
    rw [List.dropWhile_cons]
    simp [dropWhile_head_not p s c t h]

theorem head_not_of_dropWhile_self {p : Char → Bool} {c : Char} {t : List Char}
    (h : (c :: t).dropWhile p = c :: t) : p c = false := by
  by_cases hc : p c = true
  · rw [List.dropWhile_cons, if_pos hc] at h
    have hsuf : t.dropWhile p <:+ t := List.dropWhile_suffix p
    have hle := List.IsSuffix.length_le hsuf
    have hlen := congrArg List.length h
    simp at hlen
    omega
  · exact eq_false_of_ne_true hc

theorem stripWS_noLead (s : List Char) :
    (stripWS s).dropWhile isSpace = stripWS s := by
  unfold stripWS stripBy
  obtain ⟨r, hr⟩ := List.dropWhile_suffix (l := (s.dropWhile isSpace).reverse) isSpace
  cases hBr : ((s.dropWhile isSpace).reverse.dropWhile isSpace).reverse with
  | nil => rfl
  | cons c t =>
    have h1 : ((s.dropWhile isSpace).reverse.dropWhile isSpace).reverse ++ r.reverse
        = s.dropWhile isSpace := by
      rw [← List.reverse_append, hr, List.reverse_reverse]
    rw [hBr] at h1
    have hc : isSpace c = false :=
      dropWhile_head_not isSpace s c (t ++ r.reverse)
        (by rw [← h1, List.cons_append])
    rw [List.dropWhile_cons]
    simp [hc]

theorem stripWS_noTrail (s : List Char) :
    (stripWS s).reverse.dropWhile isSpace = (stripWS s).reverse := by
  unfold stripWS stripBy
  rw [List.reverse_reverse]
  exact dropWhile_idem isSpace _

theorem stripWS_eq_self {s : List Char} (h1 : s.dropWhile isSpace = s)
    (h2 : s.reverse.dropWhile isSpace = s.reverse) : stripWS s = s := by
  unfold stripWS stripBy
  rw [h1, h2, List.reverse_reverse]

theorem stripped_space_join {a b : List Char}
    (ha : a ≠ []) (ha1 : a.dropWhile isSpace = a)
    (hb : b ≠ []) (hb2 : b.reverse.dropWhile isSpace = b.reverse) :
    (a ++ ' ' :: b).dropWhile isSpace = a ++ ' ' :: b ∧
      (a ++ ' ' :: b).reverse.dropWhile isSpace = (a ++ ' ' :: b).reverse := by
  constructor
  · obtain ⟨c, t, rfl⟩ : ∃ c t, a = c :: t := by
      cases a with
      | nil => exact absurd rfl ha
      | cons c t => exact ⟨c, t, rfl⟩
    have hc : isSpace c = false := head_not_of_dropWhile_self ha1
    rw [List.cons_append, List.dropWhile_cons]
    simp [hc]
  · obtain ⟨d, u, hdu⟩ : ∃ d u, b.reverse = d :: u := by
      cases hbr : b.reverse with
      | nil => exact absurd (List.reverse_eq_nil_iff.mp hbr) hb
      | cons d u => exact ⟨d, u, rfl⟩
    have hd : isSpace d = false := head_not_of_dropWhile_self (hdu ▸ hb2)
    rw [List.reverse_append, List.reverse_cons, hdu, List.cons_append,
      List.cons_append, List.dropWhile_cons]
    simp [hd]

theorem sentencesAux_mem_props (s : List Char) :
    ∀ cur x, x ∈ sentencesAux s cur →
      x ≠ [] ∧ x.dropWhile isSpace = x ∧
        x.reverse.dropWhile isSpace = x.reverse := by
  induction s with
  | nil =>
    intro cur x hx
    simp only [sentencesAux] at hx
    by_cases h : (stripWS cur).isEmpty = true
    · simp [h] at hx
    · rw [if_neg h] at hx
      rw [List.mem_singleton] at hx
      subst hx
      exact ⟨by simpa [List.isEmpty_iff] using h, stripWS_noLead cur,
        stripWS_noTrail cur⟩
  | cons c rest ih =>
    intro cur x hx
    simp only [sentencesAux] at hx
    by_cases h : (c == '.' || c == '!' || c == '?') = true
    · rw [if_pos h] at hx
      rcases List.mem_cons.mp hx with hx1 | hx2
      · subst hx1
        have hc : isSpace c = false := by
          rcases (by simpa using h : (c = '.' ∨ c = '!') ∨ c = '?') with
            (h1 | h1) | h1 <;> subst h1 <;> decide
        refine ⟨?_, stripWS_noLead _, stripWS_noTrail _⟩
        intro hnil
        have hfnil := filter_of_stripWS_nil hnil
        simp [List.filter_append, List.filter_cons, hc] at hfnil
      · exact ih [] x hx2
    · rw [if_neg h] at hx
      exact ih (cur ++ [c]) x hx

theorem packAux_mem_props (m : Nat) :
    ∀ (sents : List (List Char)) (cur : List Char),
      (∀ s ∈ sents, s ≠ [] ∧ s.dropWhile isSpace = s ∧
        s.reverse.dropWhile isSpace = s.reverse) →
      (cur = [] ∨ (cur ≠ [] ∧ cur.dropWhile isSpace = cur ∧
        cur.reverse.dropWhile isSpace = cur.reverse)) →
      ∀ x ∈ packAux m sents cur,
        x ≠ [] ∧ x.dropWhile isSpace = x ∧
          x.reverse.dropWhile isSpace = x.reverse := by
  intro sents
  induction sents with
  | nil =>
    intro cur _hs hcur x hx
    simp only [packAux] at hx
    by_cases h : cur.isEmpty = true
    · simp [h] at hx
    · rw [if_neg h] at hx
      rw [List.mem_singleton] at hx
      subst hx
      rcases hcur with rfl | h2
      · simp at h
      · exact h2
  | cons s rest ih =>
    intro cur hs hcur x hx
    have hs0 := hs s (List.mem_cons_self s rest)
    have hsrest : ∀ t ∈ rest, t ≠ [] ∧ t.dropWhile isSpace = t ∧
        t.reverse.dropWhile isSpace = t.reverse :=
      fun t ht => hs t (List.mem_cons_of_mem s ht)
    simp only [packAux] at hx
    by_cases hfit : cur.length + s.length + 1 ≤ m
    · rw [if_pos hfit] at hx
      by_cases hcE : cur.isEmpty = true
      · rw [if_pos hcE] at hx
        exact ih s hsrest (Or.inr hs0) x hx
      · rw [if_neg hcE] at hx
        have hcurP : cur ≠ [] ∧ cur.dropWhile isSpace = cur ∧
            cur.reverse.dropWhile isSpace = cur.reverse := by
          rcases hcur with rfl | h2
          · simp at hcE
          · exact h2
        obtain ⟨hj1, hj2⟩ :=
          stripped_space_join hcurP.1 hcurP.2.1 hs0.1 hs0.2.2
        refine ih _ hsrest (Or.inr ⟨?_, hj1, hj2⟩) x hx
        intro hnil
        rcases List.append_eq_nil.mp hnil with ⟨hn, -⟩
        exact hcurP.1 hn
    · rw [if_neg hfit] at hx
      rcases List.mem_append.mp hx with hx1 | hx2
      · by_cases hcE : cur.isEmpty = true
        · simp [hcE] at hx1
        · rw [if_neg hcE] at hx1
          rw [List.mem_singleton] at hx1
          subst hx1
          rcases hcur with rfl | h2
          · simp at hcE
          · exact h2
      · exact ih s hsrest (Or.inr hs0) x hx2

theorem packAux_ne_nil (m : Nat) :
    ∀ (sents : List (List Char)) (cur : List Char),
      (∀ s ∈ sents, s ≠ []) → (sents ≠ [] ∨ cur ≠ []) →
      packAux m sents cur ≠ [] := by
  intro sents
  induction sents with
  | nil =>
    intro cur _hs h
    rcases h with h1 | h2
    · exact absurd rfl h1
    · simp only [packAux]
      rw [if_neg (by simpa [List.isEmpty_iff] using h2)]
      exact List.cons_ne_nil _ _
  | cons s rest ih =>
    intro cur hs _h
    have hs0 : s ≠ [] := hs s (List.mem_cons_self s rest)
    have hsrest : ∀ t ∈ rest, t ≠ [] := fun t ht => hs t (List.mem_cons_of_mem s ht)
    simp only [packAux]
    by_cases hfit : cur.length + s.length + 1 ≤ m
    · rw [if_pos hfit]
      apply ih _ hsrest
      right
      by_cases hcE : cur.isEmpty = true
      · simpa [hcE] using hs0
      · rw [if_neg hcE]
        intro hnil
        rcases List.append_eq_nil.mp hnil with ⟨-, hn⟩
        exact List.cons_ne_nil _ _ hn
    · rw [if_neg hfit]
      by_cases hcE : cur.isEmpty = true
      · rw [if_pos hcE]
        simpa using ih s hsrest (Or.inr hs0)
      · rw [if_neg hcE]
        exact List.cons_ne_nil _ _
theorem splitSentences_ne_nil {part : List Char}
    (h : part.filter (fun c => !isSpace c) ≠ []) : splitSentences part ≠ [] := by
  intro hnil
  have hff := filter_flatten_sentencesAux part []
  rw [show sentencesAux part [] = splitSentences part from rfl, hnil] at hff
  simp only [List.flatten_nil, List.filter_nil, List.nil_append] at hff
  exact h hff.symm

theorem paraParts_mem_props (text : List Char) :
    ∀ part ∈ paraParts text,
      part ≠ [] ∧ part.dropWhile isSpace = part ∧
        part.reverse.dropWhile isSpace = part.reverse := by
  intro part hp
  unfold paraParts at hp
  obtain ⟨hmem, hne⟩ := List.mem_filter.mp hp
  obtain ⟨y, _hy, rfl⟩ := List.mem_map.mp hmem
  refine ⟨?_, stripWS_noLead y, stripWS_noTrail y⟩
  simpa [List.isEmpty_iff] using hne

theorem processPart_mem_props (m : Nat) (part : List Char)
    (hne : part ≠ []) (h1 : part.dropWhile isSpace = part)
    (h2 : part.reverse.dropWhile isSpace = part.reverse) :
    ∀ x ∈ processPart m part,
      x ≠ [] ∧ x.dropWhile isSpace = x ∧
        x.reverse.dropWhile isSpace = x.reverse := by
  intro x hx
  unfold processPart at hx
  by_cases hlen : part.length ≤ m
  · rw [if_pos hlen, List.mem_singleton] at hx
    subst hx
    exact ⟨hne, h1, h2⟩
  · rw [if_neg hlen] at hx
    exact packAux_mem_props m (splitSentences part) []
      (fun s hs => sentencesAux_mem_props part [] s hs) (Or.inl rfl) x hx

theorem processPart_ne_nil (m : Nat) (part : List Char)
    (hne : part ≠ []) (h1 : part.dropWhile isSpace = part) :
    processPart m part ≠ [] := by
  unfold processPart
  by_cases hlen : part.length ≤ m
  · simp [hlen]
  · rw [if_neg hlen]
    apply packAux_ne_nil
    · exact fun s hs => (sentencesAux_mem_props part [] s hs).1
    · left
      apply splitSentences_ne_nil
      obtain ⟨c, t, rfl⟩ : ∃ c t, part = c :: t := by
        cases part with
        | nil => exact absurd rfl hne
        | cons c t => exact ⟨c, t, rfl⟩
      have hc : isSpace c = false := head_not_of_dropWhile_self h1
      simp [List.filter_cons, hc]

/-- C10: when the input text has at least one non-whitespace character,
every chunk produced by the Segmenter is non-empty and equals its own
whitespace-stripped form (no leading or trailing whitespace). -/
theorem segmenter_chunks_stripped_nonempty (text : List Char) (L : Nat)
    (h : ∃ c ∈ text, isSpace c = false) :
    ∀ chunk ∈ split_text text L, chunk ≠ [] ∧ stripWS chunk = chunk := by
  have hfil : text.filter (fun c => !isSpace c) ≠ [] := by
    obtain ⟨c, hc, hcs⟩ := h
    intro hnil
    have hmem : c ∈ text.filter (fun c => !isSpace c) :=
      List.mem_filter.mpr ⟨hc, by simp [hcs]⟩
    rw [hnil] at hmem
    exact List.not_mem_nil c hmem
  have hppne : paraParts text ≠ [] := by
    intro h0
    have hff := filter_flatten_paraParts text
    rw [h0] at hff
    simp only [List.flatten_nil, List.filter_nil] at hff
    exact hfil hff.symm
  obtain ⟨p0, pps, hp0⟩ : ∃ p0 pps, paraParts text = p0 :: pps := by
    cases hpp : paraParts text with
    | nil => exact absurd hpp hppne
    | cons a b => exact ⟨a, b, rfl⟩
  have hp0props := paraParts_mem_props text p0 (by rw [hp0]; exact List.mem_cons_self _ _)
  have hfinal : (((paraParts text).map (processPart L)).flatten) ≠ [] := by
    rw [hp0]
    simp only [List.map_cons, List.flatten_cons]
    intro hnil
    rcases List.append_eq_nil.mp hnil with ⟨hn1, -⟩
    exact processPart_ne_nil L p0 hp0props.1 hp0props.2.1 hn1
  intro chunk hchunk
  unfold split_text at hchunk
  rw [if_neg (by simpa [List.isEmpty_iff] using hfinal)] at hchunk
  rw [List.mem_flatten] at hchunk
  obtain ⟨l, hl, hcl⟩ := hchunk
  obtain ⟨part, hpart, rfl⟩ := List.mem_map.mp hl
  obtain ⟨hpne, hpp1, hpp2⟩ := paraParts_mem_props text part hpart
  obtain ⟨hc1, hc2, hc3⟩ := processPart_mem_props L part hpne hpp1 hpp2 chunk hcl
  exact ⟨hc1, stripWS_eq_self hc2 hc3⟩

/-- Witness for C10 at `text = "hi"`, `L = 5`. -/
theorem segmenter_chunks_stripped_nonempty_witness :
    (∃ c ∈ "hi".data, isSpace c = false) ∧
      ∀ chunk ∈ split_text "hi".data 5, chunk ≠ [] ∧ stripWS chunk = chunk :=
  ⟨by decide, segmenter_chunks_stripped_nonempty "hi".data 5 (by decide)⟩

theorem packAux_len_or (m : Nat) (S : List Char → Prop) :
    ∀ (sents : List (List Char)) (cur : List Char),
      (∀ s ∈ sents, S s) → (cur.length ≤ m ∨ S cur) →
      ∀ x ∈ packAux m sents cur, x.length ≤ m ∨ S x := by
  intro sents
  induction sents with
  | nil =>
    intro cur _hs hc x hx
    simp only [packAux] at hx
    by_cases h : cur.isEmpty = true
    · simp [h] at hx
    · rw [if_neg h, List.mem_singleton] at hx
      subst hx
      exact hc
  | cons s rest ih =>
    intro cur hs hc x hx
    have hs0 : S s := hs s (List.mem_cons_self s rest)
    have hsrest : ∀ t ∈ rest, S t := fun t ht => hs t (List.mem_cons_of_mem s ht)
    simp only [packAux] at hx
    by_cases hfit : cur.length + s.length + 1 ≤ m
    · rw [if_pos hfit] at hx
      by_cases hcE : cur.isEmpty = true
      · rw [if_pos hcE] at hx
        exact ih s hsrest (Or.inr hs0) x hx
      · rw [if_neg hcE] at hx
        refine ih _ hsrest (Or.inl ?_) x hx
        rw [List.length_append, List.length_cons]
        omega
    · rw [if_neg hfit] at hx
      rcases List.mem_append.mp hx with hx1 | hx2
      · by_cases hcE : cur.isEmpty = true
        · simp [hcE] at hx1
        · rw [if_neg hcE, List.mem_singleton] at hx1
          subst hx1
          exact hc
      · exact ih s hsrest (Or.inr hs0) x hx2

/-- C2 (amended): every chunk produced by the Segmenter has length ≤ L,
unless it is a single atomic sentence unit of an oversized paragraph
(emitted whole even when longer than L), or the pipeline produced zero
chunks and the whole original text is returned as the single fallback
chunk. -/
theorem segmenter_chunk_bound_amended (text : List Char) (L : Nat) :
    ∀ chunk ∈ split_text text L,
      chunk.length ≤ L ∨ isSentenceUnitOf text L chunk ∨ chunk = text := by
  intro chunk hchunk
  unfold split_text at hchunk
  by_cases hE : (((paraParts text).map (processPart L)).flatten).isEmpty = true
  · rw [if_pos hE, List.mem_singleton] at hchunk
    exact Or.inr (Or.inr hchunk)
  · rw [if_neg hE, List.mem_flatten] at hchunk
    obtain ⟨l, hl, hcl⟩ := hchunk
    obtain ⟨part, hpart, rfl⟩ := List.mem_map.mp hl
    unfold processPart at hcl
    by_cases hlen : part.length ≤ L
    · rw [if_pos hlen, List.mem_singleton] at hcl
      subst hcl
      exact Or.inl hlen
    · rw [if_neg hlen] at hcl
      have hmem := packAux_len_or L (fun c => c ∈ splitSentences part)
        (splitSentences part) [] (fun s hs => hs) (Or.inl (by simp)) chunk hcl
      rcases hmem with h1 | h2
      · exact Or.inl h1
      · exact Or.inr (Or.inl ⟨part, hpart, Nat.lt_of_not_le hlen, h2⟩)

/-- C2 as stated is false: for the non-empty text `"  "` (two spaces) and
`max_length = 1`, the pipeline yields zero chunks and the fallback emits
the whole text as a single chunk of length 2 > 1 that is not an atomic
sentence unit (there are no paragraph parts at all). -/
theorem segmenter_chunk_bound_counterexample :
    split_text "  ".data 1 = ["  ".data] ∧
      ¬ ("  ".data).length ≤ 1 ∧
      ¬ isSentenceUnitOf "  ".data 1 "  ".data :=
  ⟨by decide, by decide, by decide⟩

/-- Witness for the amended C2 at `text = "ab"`, `L = 5`. -/
theorem segmenter_chunk_bound_amended_witness :
    ("ab".data ∈ split_text "ab".data 5) ∧
      (("ab".data).length ≤ 5 ∨ isSentenceUnitOf "ab".data 5 "ab".data ∨
        "ab".data = "ab".data) :=
  ⟨by decide, segmenter_chunk_bound_amended "ab".data 5 "ab".data (by decide)⟩

end ChatBook
